import Mathlib

/-!
Verification of `mammal_scientific-name.py`: a batch script that loads the
NCBI taxonomy dump, collects all descendants of the Mammalia clade,
filters species-rank nodes and classifies their scientific names as
confirmed or provisional.

The Python source is shallowly embedded below.  Strings are Lean
`String`s / `List Char`; Python `dict`s are association lists with the
dict's update semantics; Python sets are `Finset Int`; fallible code
(which in Python raises `IndexError` / `ValueError`) returns `Option`.
Character classes (`str.lower`, `\w`, `\d`, `[A-Z]`, whitespace,
`str.isupper` …) are modelled at ASCII granularity, matching CPython on
ASCII data; both sides of every comparison below use the same model.
-/

/-! ### Character utilities -/

/-- ASCII whitespace, the separator class of Python `str.split()` (ASCII
fragment of Python's Unicode whitespace). -/
def isPyWs (c : Char) : Bool :=
  c = ' ' || c = '\t' || c = '\n' || c = '\r' || c = '\x0b' || c = '\x0c'

/-- The character class `[A-Z]` of the Python regexes. -/
def isUpperAZ (c : Char) : Bool := decide (65 ≤ c.toNat) && decide (c.toNat ≤ 90)

/-- The character class `[a-zA-Z]`, i.e. `[A-Z]` under `re.IGNORECASE`. -/
def isLetterAscii (c : Char) : Bool :=
  isUpperAZ c || (decide (97 ≤ c.toNat) && decide (c.toNat ≤ 122))

/-- A word character for `\b` word boundaries: `[a-zA-Z0-9_]` (ASCII
fragment of Python's `\w`). -/
def isWordChar (c : Char) : Bool := c.isAlphanum || c = '_'

/-- `str.lower` on one character (ASCII fragment: `A`–`Z` map to
`a`–`z`, everything else is unchanged). -/
def lowerChar (c : Char) : Char :=
  if h : 65 ≤ c.toNat ∧ c.toNat ≤ 90 then
    Char.ofNatAux (c.toNat + 32) (Or.inl (by omega))
  else c

/-- `name.lower()` over the character list. -/
def lowerL (l : List Char) : List Char := l.map lowerChar

/-- `line.strip()`: drop leading and trailing whitespace. -/
def stripWs (l : List Char) : List Char :=
  ((l.dropWhile isPyWs).reverse.dropWhile isPyWs).reverse

/-- `name.split()` worker: split on runs of whitespace, dropping empty
words; `cur` holds the (reversed) word being read. -/
def splitWsAux (cur : List Char) : List Char → List (List Char)
  | [] => if cur = [] then [] else [cur.reverse]
  | c :: rest =>
    if isPyWs c then
      (if cur = [] then splitWsAux [] rest else cur.reverse :: splitWsAux [] rest)
    else splitWsAux (c :: cur) rest

/-- `name.split()` (no separator argument): whitespace-separated words. -/
def pySplit (l : List Char) : List (List Char) := splitWsAux [] l

/-! ### Regex matchers

Each entry of the Python `exclude_patterns` list is embedded as an
executable matcher on `List Char` with `re.search` semantics: does the
pattern match anywhere in the string?  All tokens searched under a `\b`
start (and, where the pattern ends in `\b`, end) with a word character,
so the boundary test reduces to "the neighbouring character, if any, is
not a word character". -/

/-- No word character on the given side (`none` = edge of the string). -/
def boundaryOk : Option Char → Bool
  | none => true
  | some c => !isWordChar c

/-- The token matches at the current position. `bb`/`ba` demand a `\b`
word boundary before/after the token. `prev` is the character just
before the current position, if any. -/
def matchTokAt (bb ba : Bool) (tok : List Char) (prev : Option Char) (s : List Char) : Bool :=
  tok.isPrefixOf s && (!bb || boundaryOk prev) &&
    (!ba || boundaryOk (List.head? (s.drop tok.length)))

/-- Search the token at every position, tracking the previous character. -/
def searchTokAux (bb ba : Bool) (tok : List Char) (prev : Option Char) : List Char → Bool
  | [] => matchTokAt bb ba tok prev []
  | c :: cs => matchTokAt bb ba tok prev (c :: cs) || searchTokAux bb ba tok (some c) cs

/-- `re.search` for a literal token, optionally `\b`-anchored on either
side: `searchTok true false "sp." l` is `re.search(r'\bsp\.', l)`. -/
def searchTok (bb ba : Bool) (tok : String) (s : List Char) : Bool :=
  searchTokAux bb ba tok.data none s

/-- `p` matches starting at some position of the string (`re.search` for
a matcher `p` that inspects a prefix of the remaining input). -/
def anySuffix (p : List Char → Bool) : List Char → Bool
  | [] => p []
  | c :: cs => p (c :: cs) || anySuffix p cs

/-- `\d{4}` matches at this position: four consecutive ASCII digits. -/
def fourDigitsAt : List Char → Bool
  | a :: b :: c :: e :: _ => a.isDigit && b.isDigit && c.isDigit && e.isDigit
  | _ => false

/-- `-\d{4}` matches at this position. -/
def hyphenFourAt : List Char → Bool
  | '-' :: rest => fourDigitsAt rest
  | _ => false

/-- After ≥ 2 leading `cls` characters: consume further `cls` characters
greedily, then require `-\d{4}`.  Greedy matching is complete here
because `'-'` is never a `cls` character for the classes used, so a
shorter run cannot help a failed longer one. -/
def afterRunHyphenFour (cls : Char → Bool) : List Char → Bool
  | [] => false
  | c :: cs => if cls c then afterRunHyphenFour cls cs else hyphenFourAt (c :: cs)

/-- `cls{2,}-\d{4}` matches at this position (with `cls := isUpperAZ`
this is the source's `[A-Z]{2,}-\d{4}`). -/
def runHyphenFourAt (cls : Char → Bool) : List Char → Bool
  | a :: b :: rest => cls a && cls b && afterRunHyphenFour cls rest
  | _ => false

/-- After ≥ 3 leading `cls` characters: consume further `cls` characters
greedily, then require one digit (completeness of greediness: a digit is
never a `cls` character for the classes used). -/
def afterRunDigit (cls : Char → Bool) : List Char → Bool
  | [] => false
  | c :: cs => if cls c then afterRunDigit cls cs else c.isDigit

/-- `cls{3,}\d+` matches at this position (with `cls := isUpperAZ` this
is the source's `[A-Z]{3,}\d+`). -/
def runThreeDigitAt (cls : Char → Bool) : List Char → Bool
  | a :: b :: c :: rest => cls a && cls b && cls c && afterRunDigit cls rest
  | _ => false

/-- `[\(\)]`: the string holds a parenthesis. -/
def hasParen (l : List Char) : Bool := l.any (fun c => c = '(' || c = ')')

/-! ### The validator `is_valid_species_name` -/

/-- The `exclude_patterns` list of the source, in source order; entry 15
and 16 (0-based 14, 15) are `[A-Z]{2,}-\d{4}` and `[A-Z]{3,}\d+`. -/
def excludePatterns : List (List Char → Bool) :=
  [ searchTok true false "sp."
  , searchTok true false "cf."
  , searchTok true false "aff."
  , searchTok true true "x"
  , searchTok true true "isolate"
  , searchTok true true "haplotype"
  , searchTok true false "gen."
  , searchTok true true "gen"
  , searchTok true true "environmental"
  , searchTok true true "mixed"
  , searchTok true false "indet."
  , searchTok false false "bold:"
  , hasParen
  , anySuffix fourDigitsAt
  , anySuffix (runHyphenFourAt isUpperAZ)
  , anySuffix (runThreeDigitAt isUpperAZ)
  , fun l => searchTok true true "complex" l || searchTok true true "group" l ]

/-- `words[0][0].isupper()` — false on the empty shapes the source would
crash on (`is_valid_species_nameE` below models the crash itself). -/
def firstWordUpper : List (List Char) → Bool
  | (c :: _) :: _ => c.isUpper
  | _ => false

/-- `word[0].islower()` for one word. -/
def wordStartsLower : List Char → Bool
  | c :: _ => c.isLower
  | [] => false

/-- `is_valid_species_name(name)` from the source: reject when any
exclusion pattern matches `name.lower()`; then accept exactly the 2- or
3-word names whose first word starts upper-case and whose remaining
words start lower-case. -/
def is_valid_species_name (name : String) : Bool :=
  let name_lower := lowerL name.data
  if excludePatterns.any (fun p => p name_lower) then false
  else
    let words := pySplit name.data
    if words.length < 2 || 3 < words.length then false
    else if !(firstWordUpper words) then false
    else (words.drop 1).all wordStartsLower

/-- The same validator with the two rules `[A-Z]{2,}-\d{4}` and
`[A-Z]{3,}\d+` removed from the pattern list (for the unreachability
claim about those two rules). -/
def excludePatternsReduced : List (List Char → Bool) :=
  [ searchTok true false "sp."
  , searchTok true false "cf."
  , searchTok true false "aff."
  , searchTok true true "x"
  , searchTok true true "isolate"
  , searchTok true true "haplotype"
  , searchTok true false "gen."
  , searchTok true true "gen"
  , searchTok true true "environmental"
  , searchTok true true "mixed"
  , searchTok true false "indet."
  , searchTok false false "bold:"
  , hasParen
  , anySuffix fourDigitsAt
  , fun l => searchTok true true "complex" l || searchTok true true "group" l ]

/-- `is_valid_species_name` with the two upper-case-class rules removed. -/
def is_valid_species_name_reduced (name : String) : Bool :=
  let name_lower := lowerL name.data
  if excludePatternsReduced.any (fun p => p name_lower) then false
  else
    let words := pySplit name.data
    if words.length < 2 || 3 < words.length then false
    else if !(firstWordUpper words) then false
    else (words.drop 1).all wordStartsLower

/-- Modelled from the spec's words for the exclusion list "matched
case-insensitively against N" (§4.5/§8): every pattern applied with
`re.IGNORECASE` semantics.  For the lower-case literal tokens, the digit
run, the parentheses and `complex|group` this is matching against the
lower-cased name; for the two upper-case-class rules it widens `[A-Z]`
to `[a-zA-Z]` and matches against the original name. -/
def anyExcludedCI (name : String) : Bool :=
  let name_lower := lowerL name.data
  excludePatternsReduced.any (fun p => p name_lower) ||
    anySuffix (runHyphenFourAt isLetterAscii) name.data ||
    anySuffix (runThreeDigitAt isLetterAscii) name.data

/-- The validator as §8 of the spec literally states it: structural
word rules on the original name, and no §4.5 pattern matching
case-insensitively against the name. -/
def spec_validate_ci (name : String) : Bool :=
  let words := pySplit name.data
  (words.length == 2 || words.length == 3) &&
    firstWordUpper words && (words.drop 1).all wordStartsLower &&
    !(anyExcludedCI name)

/-- `word[0].islower()` over the tail words with the indexing made
explicit: `none` models the `IndexError` an empty word would raise. -/
def tailWordsLowerE : List (List Char) → Option Bool
  | [] => some true
  | w :: ws =>
    match w.head? with
    | none => none
    | some c => if !c.isLower then some false else tailWordsLowerE ws

/-- `is_valid_species_name` with the two word indexings `words[0][0]`
and `word[0]` made explicit: `none` models an `IndexError` (out-of-range
indexing); `some b` is a normal boolean return. -/
def is_valid_species_nameE (name : String) : Option Bool :=
  let name_lower := lowerL name.data
  if excludePatterns.any (fun p => p name_lower) then some false
  else
    let words := pySplit name.data
    if words.length < 2 || 3 < words.length then some false
    else
      match words.head? with
      | none => none
      | some w =>
        match w.head? with
        | none => none
        | some c => if !c.isUpper then some false else tailWordsLowerE (words.drop 1)

/-- The spec-side reading of the validator with the patterns matched
against the lower-cased name: exactly 2 or 3 whitespace-separated words,
first word starting upper-case, later words starting lower-case, and no
exclusion pattern matching the lower-cased name. -/
def SpecValidLowered (name : String) : Prop :=
  ((pySplit name.data).length = 2 ∨ (pySplit name.data).length = 3) ∧
    (∀ w ∈ (pySplit name.data).take 1, ∀ c ∈ w.head?, c.isUpper = true) ∧
    (∀ w ∈ (pySplit name.data).drop 1, ∀ c ∈ w.head?, c.isLower = true) ∧
    (∀ p ∈ excludePatterns, p (lowerL name.data) = false)

/-! ### Line parsing (`nodes.dmp` / `names.dmp`)

A file is a list of lines.  Each line is stripped and split on the
three-character separator `"\t|\t"`; field indexing that Python would
crash on (`IndexError`), and `int()` calls that would raise
`ValueError`, are modelled by `Option`. -/

/-- `line.split('\t|\t')`: split on the literal separator, leftmost,
non-overlapping; `cur` holds the (reversed) field being read.  As in
Python, the result is never empty (`""` splits to `[""]`). -/
def splitTabPipe (cur : List Char) : List Char → List (List Char)
  | '\t' :: '|' :: '\t' :: rest => cur.reverse :: splitTabPipe [] rest
  | c :: rest => splitTabPipe (c :: cur) rest
  | [] => [cur.reverse]

/-- After a digit of a Python integer literal: digits, with single
underscores allowed between digits. -/
def pyIntDigits : List Char → Bool
  | [] => true
  | '_' :: c :: cs => c.isDigit && pyIntDigits cs
  | c :: cs => c.isDigit && pyIntDigits cs

/-- A non-empty Python digit sequence (digits with single underscores
between them). -/
def pyIntCore : List Char → Bool
  | [] => false
  | c :: cs => c.isDigit && pyIntDigits cs

/-- Numeric value of a digit sequence, skipping underscores. -/
def digitsVal (l : List Char) : Nat :=
  l.foldl (fun acc c => if c = '_' then acc else acc * 10 + (c.toNat - 48)) 0

/-- Python `int(...)` on a string: optional surrounding whitespace,
optional sign, then a digit sequence; `none` models `ValueError`. -/
def pyIntL (l : List Char) : Option Int :=
  match stripWs l with
  | '+' :: rest => if pyIntCore rest then some (Int.ofNat (digitsVal rest)) else none
  | '-' :: rest => if pyIntCore rest then some (-(Int.ofNat (digitsVal rest))) else none
  | rest => if pyIntCore rest then some (Int.ofNat (digitsVal rest)) else none

/-- Association-list lookup: the value stored for key `k'`, if any
(Python `dict` access / `dict.get`). -/
def lookupA {β : Type} : List (Int × β) → Int → Option β
  | [], _ => none
  | (k, v) :: rest, k' => if k = k' then some v else lookupA rest k'

/-- `dict[k] = v`: overwrite in place when the key exists, else append
(Python dicts keep the first-insertion position of a key). -/
def updAssoc {β : Type} : List (Int × β) → Int → β → List (Int × β)
  | [], k, v => [(k, v)]
  | (k', v') :: rest, k, v =>
    if k' = k then (k', v) :: rest else (k', v') :: updAssoc rest k v

/-- `children_dict[parent].append(child)` on the `defaultdict(list)`:
append to the existing child list, or start a new one. -/
def addChild : List (Int × List Int) → Int → Int → List (Int × List Int)
  | [], p, c => [(p, [c])]
  | (k, cs) :: rest, p, c =>
    if k = p then (k, cs ++ [c]) :: rest else (k, cs) :: addChild rest p c

/-- The three mappings `load_nodes` builds: `parent_dict`, `rank_dict`,
`children_dict`. -/
abbrev NodeMaps := List (Int × Int) × List (Int × String) × List (Int × List Int)

/-- One line of `nodes.dmp`: `tax_id = int(parts[0].strip())`,
`parent_tax_id = int(parts[1].strip())`, `rank = parts[2].strip()`;
`none` models the `IndexError`/`ValueError` the line would raise. -/
def parseNodeLine (line : String) : Option (Int × Int × String) :=
  match splitTabPipe [] (stripWs line.data) with
  | p0 :: p1 :: p2 :: _ =>
    match pyIntL (stripWs p0), pyIntL (stripWs p1) with
    | some tax_id, some parent_tax_id => some (tax_id, parent_tax_id, ⟨stripWs p2⟩)
    | _, _ => none
  | _ => none

/-- The line raises: fewer than 3 fields, or a non-integer
identifier/parent field. -/
def badNodeLine (line : String) : Prop :=
  match splitTabPipe [] (stripWs line.data) with
  | p0 :: p1 :: _ :: _ => pyIntL (stripWs p0) = none ∨ pyIntL (stripWs p1) = none
  | _ => True

/-- The accumulation step of `load_nodes` for one parsed line. -/
def nodeStep (acc : NodeMaps) (t : Int × Int × String) : NodeMaps :=
  (updAssoc acc.1 t.1 t.2.1, updAssoc acc.2.1 t.1 t.2.2, addChild acc.2.2 t.2.1 t.1)

/-- The line loop of `load_nodes`, aborting on the first bad line. -/
def load_nodes_aux (acc : NodeMaps) : List String → Option NodeMaps
  | [] => some acc
  | line :: rest =>
    match parseNodeLine line with
    | none => none
    | some t => load_nodes_aux (nodeStep acc t) rest

/-- `load_nodes`: parse every line of `nodes.dmp` in order into the
three mappings; `none` models the run aborting on a malformed line. -/
def load_nodes (lines : List String) : Option NodeMaps :=
  load_nodes_aux ([], [], []) lines

/-- All lines parsed, in file order (`none` as soon as one is bad). -/
def parseAllNodes : List String → Option (List (Int × Int × String))
  | [] => some []
  | line :: rest =>
    match parseNodeLine line with
    | none => none
    | some t => (parseAllNodes rest).map (t :: ·)

/-- The three mappings built from a list of parsed lines in order. -/
def buildNodeMaps (ts : List (Int × Int × String)) : NodeMaps :=
  ts.foldl nodeStep ([], [], [])

/-- Trailing `'\t'`/`'|'` characters removed: `.rstrip('\t|')`. -/
def rstripTabPipe (l : List Char) : List Char :=
  (l.reverse.dropWhile (fun c => c = '\t' || c = '|')).reverse

/-- One line of `names.dmp`: `tax_id = int(parts[0].strip())`,
`name = parts[1].strip()`,
`name_class = parts[3].strip().rstrip('\t|')`; `none` models the
`IndexError`/`ValueError` the line would raise. -/
def parseNameLine (line : String) : Option (Int × String × String) :=
  match splitTabPipe [] (stripWs line.data) with
  | p0 :: p1 :: _ :: p3 :: _ =>
    match pyIntL (stripWs p0) with
    | some tax_id => some (tax_id, ⟨stripWs p1⟩, ⟨rstripTabPipe (stripWs p3)⟩)
    | none => none
  | _ => none

/-- The line loop of `load_names`: keep a line's name under its
identifier exactly when its name class is `"scientific name"`
(overwriting any earlier entry), aborting on the first bad line. -/
def load_names_aux (acc : List (Int × String)) : List String → Option (List (Int × String))
  | [] => some acc
  | line :: rest =>
    match parseNameLine line with
    | none => none
    | some (tax_id, nm, name_class) =>
      load_names_aux (if name_class = "scientific name" then updAssoc acc tax_id nm else acc) rest

/-- `load_names`: the mapping identifier → scientific name. -/
def load_names (lines : List String) : Option (List (Int × String)) :=
  load_names_aux [] lines

/-- The scientific-name record a line contributes for identifier `i`:
its name when the line parses, has name class `"scientific name"` and
identifier `i`; `none` otherwise. -/
def sciEntry (line : String) (i : Int) : Option String :=
  match parseNameLine line with
  | some (tax_id, nm, name_class) =>
    if name_class = "scientific name" ∧ tax_id = i then some nm else none
  | none => none

/-- First `some` produced by `f` along the list. -/
def firstHit {α β : Type} (f : α → Option β) : List α → Option β
  | [] => none
  | a :: as => match f a with | some b => some b | none => firstHit f as

/-- The first of two options that is `some`. -/
def firstSome {β : Type} : Option β → Option β → Option β
  | some v, _ => some v
  | none, o => o

/-! ### Descendant collection (`get_all_descendants`)

The Python loop keeps a `descendants` set and a `queue` list, pops the
queue's front, and for each child of the popped node that is not yet a
descendant adds it to the set and appends it to the queue.  The
embedding carries one extra piece of ghost state: `hist`, the list of
every identifier appended to the queue after the initial root, so that
"never re-enqueues" claims can be stated.  `hist` never influences the
computed set. -/

/-- `children_dict[current]` under `if current in children_dict`: the
stored child list, or `[]` when the key is absent. -/
def lookupChildren (cd : List (Int × List Int)) (k : Int) : List Int :=
  (lookupA cd k).getD []

/-- Every identifier occurring in some child list of `children_dict`:
only these can ever be inserted into `descendants` (used as the
termination measure's universe). -/
def allChildren (cd : List (Int × List Int)) : Finset Int :=
  cd.foldr (fun p acc => p.2.toFinset ∪ acc) ∅

/-- The inner `for child in children_dict[current]` loop: `d` is the
descendant set, `q` the remaining queue, `hist` the enqueue log. -/
def addChildrenH (d : Finset Int) (q hist : List Int) : List Int → Finset Int × List Int × List Int
  | [] => (d, q, hist)
  | c :: cs =>
    if c ∈ d then addChildrenH d q hist cs
    else addChildrenH (insert c d) (q ++ [c]) (hist ++ [c]) cs

theorem mem_allChildren_of_mem_lookupChildren {cd : List (Int × List Int)} {k c : Int}
    (h : c ∈ lookupChildren cd k) : c ∈ allChildren cd := by
  induction cd with
  | nil => simp [lookupChildren, lookupA] at h
  | cons p rest ih =>
    obtain ⟨k', cs⟩ := p
    simp only [lookupChildren, lookupA] at h
    by_cases hk : k' = k
    · simp only [hk, if_true] at h
      simp only [allChildren, List.foldr, Finset.mem_union]
      left
      simpa using h
    · simp only [hk, if_false] at h
      simp only [allChildren, List.foldr, Finset.mem_union]
      right
      exact ih (by simpa [lookupChildren] using h)

theorem addChildrenH_measure (A : Finset Int) (cs : List Int) (d : Finset Int) (q hist : List Int)
    (hcs : ∀ c ∈ cs, c ∈ A) :
    2 * (A \ (addChildrenH d q hist cs).1).card + (addChildrenH d q hist cs).2.1.length
      ≤ 2 * (A \ d).card + q.length := by
  induction cs generalizing d q hist with
  | nil => simp [addChildrenH]
  | cons c cs ih =>
    simp only [addChildrenH]
    by_cases hc : c ∈ d
    · simp only [hc, if_true]
      exact ih d q hist (fun x hx => hcs x (List.mem_cons_of_mem _ hx))
    · simp only [hc, if_false]
      have h1 := ih (insert c d) (q ++ [c]) (hist ++ [c])
        (fun x hx => hcs x (List.mem_cons_of_mem _ hx))
      have hca : c ∈ A \ d := Finset.mem_sdiff.mpr ⟨hcs c (List.mem_cons_self c cs), hc⟩
      have he : A \ insert c d = (A \ d).erase c := by
        ext y
        simp only [Finset.mem_sdiff, Finset.mem_erase, Finset.mem_insert]
        tauto
      rw [he] at h1
      have hcard : ((A \ d).erase c).card = (A \ d).card - 1 := Finset.card_erase_of_mem hca
      have hpos : 1 ≤ (A \ d).card := Finset.card_pos.mpr ⟨c, hca⟩
      rw [hcard] at h1
      simp only [List.length_append, List.length_cons, List.length_nil] at h1 ⊢
      omega

/-- The `while queue:` loop of `get_all_descendants`, with the enqueue
log as ghost state.  Terminates because every enqueued identifier is
simultaneously inserted into `d`, and only identifiers from
`allChildren cd` are ever inserted. -/
def bfsLoop : List (Int × List Int) → Finset Int → List Int → List Int → Finset Int × List Int
  | _, d, [], hist => (d, hist)
  | cd, d, current :: rest, hist =>
    bfsLoop cd (addChildrenH d rest hist (lookupChildren cd current)).1
      (addChildrenH d rest hist (lookupChildren cd current)).2.1
      (addChildrenH d rest hist (lookupChildren cd current)).2.2
termination_by cd d q _hist => 2 * (allChildren cd \ d).card + q.length
decreasing_by
  have := addChildrenH_measure (allChildren cd) (lookupChildren cd current) d rest hist
    (fun c hc => mem_allChildren_of_mem_lookupChildren hc)
  simp only [List.length_cons]
  omega

/-- `get_all_descendants(tax_id, children_dict)`: run the loop from the
empty set and the queue `[tax_id]`; the result is the descendant set. -/
def get_all_descendants (tax_id : Int) (cd : List (Int × List Int)) : Finset Int :=
  (bfsLoop cd ∅ [tax_id] []).1

/-- The ghost enqueue log of the same run: every identifier appended to
the queue after the initial `tax_id`, in order. -/
def enqueueLog (tax_id : Int) (cd : List (Int × List Int)) : List Int :=
  (bfsLoop cd ∅ [tax_id] []).2

/-- The loop again, with explicit fuel instead of well-founded
recursion: `none` when the fuel runs out before the queue empties.
Used to state that the traversal terminates. -/
def bfsLoopFuel : Nat → List (Int × List Int) → Finset Int → List Int → List Int →
    Option (Finset Int × List Int)
  | 0, _, _, _, _ => none
  | _ + 1, _, d, [], hist => some (d, hist)
  | n + 1, cd, d, current :: rest, hist =>
    bfsLoopFuel n cd (addChildrenH d rest hist (lookupChildren cd current)).1
      (addChildrenH d rest hist (lookupChildren cd current)).2.1
      (addChildrenH d rest hist (lookupChildren cd current)).2.2

/-- `Reaches cd r x`: there is a non-empty directed path of child links
from `r` down to `x` in `children_dict` — equivalently, a directed path
of parent links from `x` up to `r`. -/
inductive Reaches (cd : List (Int × List Int)) : Int → Int → Prop
  | child {p c : Int} : c ∈ lookupChildren cd p → Reaches cd p c
  | step {p q c : Int} : Reaches cd p q → c ∈ lookupChildren cd q → Reaches cd p c

/-! ### The main pipeline (`main`)

`main` iterates `for tax_id in descendants:` over the Python *set* of
descendants; the iteration order is not specified by the set
abstraction, so the embedding takes the enumeration order of the
descendant set as an explicit parameter. -/

/-- The root identifier of the mammal clade. -/
def MAMMALIA_TAX_ID : Int := 40674

/-- The species-filter loop of `main`: walk the descendants in the
given order; for each species-rank identifier append its name (or
`"Unknown"`) to `all_mammal_species`, and additionally to
`valid_mammal_species` when the validator accepts it. -/
def speciesLists (descendants_order : List Int) (rank_dict names_dict : List (Int × String)) :
    List String × List String :=
  descendants_order.foldl
    (fun acc tax_id =>
      if lookupA rank_dict tax_id = some "species" then
        (acc.1 ++ [(lookupA names_dict tax_id).getD "Unknown"],
         if is_valid_species_name ((lookupA names_dict tax_id).getD "Unknown") then
           acc.2 ++ [(lookupA names_dict tax_id).getD "Unknown"]
         else acc.2)
      else acc)
    ([], [])

/-- `list.sort()` on names: sort ascending by the string order. -/
def sortNames (l : List String) : List String := List.insertionSort (fun a b => a ≤ b) l

/-- The output file's content: each confirmed name followed by a
newline. -/
def outputText (names : List String) : String :=
  String.join (names.map (fun n => n ++ "\n"))

/-- The full pipeline on in-memory files: load both files, filter the
descendants (enumerated in `descendants_order`) to species rank,
validate, sort and render the output file; `none` models the aborted
run.  `main` discards `parent_dict`, and `children_dict` enters only
through the descendant set, whose enumeration is the explicit
parameter. -/
def runPipeline (nodeLines nameLines : List String) (descendants_order : List Int) :
    Option String :=
  match load_nodes nodeLines with
  | none => none
  | some (_, rank_dict, _) =>
    match load_names nameLines with
    | none => none
    | some names_dict =>
      some (outputText (sortNames (speciesLists descendants_order rank_dict names_dict).2))

/-- The "all species" sequence as a filterMap: the name (or
`"Unknown"`) of every species-rank identifier, in enumeration order. -/
def speciesAll (descendants_order : List Int) (rank_dict names_dict : List (Int × String)) :
    List String :=
  descendants_order.filterMap (fun tax_id =>
    if lookupA rank_dict tax_id = some "species" then
      some ((lookupA names_dict tax_id).getD "Unknown")
    else none)

/-! ### Correctness of the descendant traversal -/

theorem addChildrenH_eq (cs : List Int) (d : Finset Int) (q hist : List Int) :
    ∃ new : List Int,
      addChildrenH d q hist cs = (d ∪ cs.toFinset, q ++ new, hist ++ new) ∧
      new.Nodup ∧ (∀ x ∈ new, x ∈ cs ∧ x ∉ d) ∧ (∀ x ∈ cs, x ∉ d → x ∈ new) := by
  induction cs generalizing d q hist with
  | nil => exact ⟨[], by simp [addChildrenH], List.nodup_nil, by simp, by simp⟩
  | cons c cs ih =>
    by_cases hc : c ∈ d
    · obtain ⟨new, heq, hnd, hmem, hcov⟩ := ih d q hist
      refine ⟨new, ?_, hnd, ?_, ?_⟩
      · simp only [addChildrenH, hc, if_true, heq]
        have : d ∪ (c :: cs).toFinset = d ∪ cs.toFinset := by
          ext y
          simp only [Finset.mem_union, List.toFinset_cons, Finset.mem_insert, List.mem_toFinset]
          constructor
          · rintro (h | h | h)
            · exact Or.inl h
            · exact Or.inl (h ▸ hc)
            · exact Or.inr (by simpa using h)
          · rintro (h | h)
            · exact Or.inl h
            · exact Or.inr (Or.inr (by simpa using h))
        rw [this]
      · intro x hx
        obtain ⟨h1, h2⟩ := hmem x hx
        exact ⟨List.mem_cons_of_mem _ h1, h2⟩
      · intro x hx hxd
        rcases List.mem_cons.mp hx with rfl | hx'
        · exact absurd hc hxd
        · exact hcov x hx' hxd
    · obtain ⟨new, heq, hnd, hmem, hcov⟩ := ih (insert c d) (q ++ [c]) (hist ++ [c])
      refine ⟨c :: new, ?_, ?_, ?_, ?_⟩
      · simp only [addChildrenH, hc, if_false, heq]
        have h1 : insert c d ∪ cs.toFinset = d ∪ (c :: cs).toFinset := by
          ext y
          simp only [Finset.mem_union, Finset.mem_insert, List.toFinset_cons, List.mem_toFinset]
          tauto
        rw [h1]
        simp [List.append_assoc]
      · refine List.nodup_cons.mpr ⟨?_, hnd⟩
        intro hcnew
        exact (hmem c hcnew).2 (Finset.mem_insert_self c d)
      · intro x hx
        rcases List.mem_cons.mp hx with rfl | hx'
        · exact ⟨List.mem_cons_self _ _, hc⟩
        · obtain ⟨h1, h2⟩ := hmem x hx'
          exact ⟨List.mem_cons_of_mem _ h1, fun hxd => h2 (Finset.mem_insert_of_mem hxd)⟩
      · intro x hx hxd
        rcases List.mem_cons.mp hx with rfl | hx'
        · exact List.mem_cons_self _ _
        · by_cases hxc : x = c
          · exact hxc ▸ List.mem_cons_self _ _
          · exact List.mem_cons_of_mem _
              (hcov x hx' (fun hin => (Finset.mem_insert.mp hin).elim hxc hxd))

theorem bfsLoop_subset (cd : List (Int × List Int)) (d : Finset Int) (q hist : List Int) :
    d ⊆ (bfsLoop cd d q hist).1 := by
  induction cd, d, q, hist using bfsLoop.induct with
  | case1 cd d hist => simp [bfsLoop]
  | case2 cd d current rest hist ih =>
    obtain ⟨new, heq, -, -, -⟩ := addChildrenH_eq (lookupChildren cd current) d rest hist
    rw [bfsLoop]
    refine fun x hx => ih ?_
    rw [heq]
    exact Finset.mem_union_left _ hx

theorem bfsLoop_hist_mem (cd : List (Int × List Int)) (d : Finset Int) (q hist : List Int) :
    ∀ x ∈ hist, x ∈ (bfsLoop cd d q hist).2 := by
  induction cd, d, q, hist using bfsLoop.induct with
  | case1 cd d hist => simp [bfsLoop]
  | case2 cd d current rest hist ih =>
    obtain ⟨new, heq, -, -, -⟩ := addChildrenH_eq (lookupChildren cd current) d rest hist
    rw [bfsLoop]
    intro x hx
    refine ih x ?_
    rw [heq]
    exact List.mem_append_left _ hx

theorem bfsLoop_sound (cd : List (Int × List Int)) (r : Int) (d : Finset Int) (q hist : List Int)
    (Hd : ∀ x ∈ d, Reaches cd r x) (Hq : ∀ x ∈ q, x = r ∨ Reaches cd r x)
    (Hh : ∀ x ∈ hist, Reaches cd r x) :
    (∀ x ∈ (bfsLoop cd d q hist).1, Reaches cd r x) ∧
      (∀ x ∈ (bfsLoop cd d q hist).2, Reaches cd r x) := by
  induction cd, d, q, hist using bfsLoop.induct with
  | case1 cd d hist => exact ⟨by simpa [bfsLoop] using Hd, by simpa [bfsLoop] using Hh⟩
  | case2 cd d current rest hist ih =>
    obtain ⟨new, heq, -, hmem, -⟩ := addChildrenH_eq (lookupChildren cd current) d rest hist
    have hcs : ∀ c ∈ lookupChildren cd current, Reaches cd r c := by
      intro c hc
      rcases Hq current (List.mem_cons_self _ _) with h | h
      · exact h ▸ Reaches.child hc
      · exact Reaches.step h hc
    have e1 : (addChildrenH d rest hist (lookupChildren cd current)).1
        = d ∪ (lookupChildren cd current).toFinset := by rw [heq]
    have e2 : (addChildrenH d rest hist (lookupChildren cd current)).2.1 = rest ++ new := by
      rw [heq]
    have e3 : (addChildrenH d rest hist (lookupChildren cd current)).2.2 = hist ++ new := by
      rw [heq]
    rw [bfsLoop]
    refine ih ?_ ?_ ?_
    · rw [e1]
      intro x hx
      rcases Finset.mem_union.mp hx with h | h
      · exact Hd x h
      · exact hcs x (List.mem_toFinset.mp h)
    · rw [e2]
      intro x hx
      rcases List.mem_append.mp hx with h | h
      · exact Hq x (List.mem_cons_of_mem _ h)
      · exact Or.inr (hcs x (hmem x h).1)
    · rw [e3]
      intro x hx
      rcases List.mem_append.mp hx with h | h
      · exact Hh x h
      · exact hcs x (hmem x h).1

theorem bfsLoop_queue_children (cd : List (Int × List Int)) (d : Finset Int) (q hist : List Int) :
    ∀ x ∈ q, ∀ c ∈ lookupChildren cd x, c ∈ (bfsLoop cd d q hist).1 := by
  induction cd, d, q, hist using bfsLoop.induct with
  | case1 cd d hist => simp
  | case2 cd d current rest hist ih =>
    obtain ⟨new, heq, -, -, -⟩ := addChildrenH_eq (lookupChildren cd current) d rest hist
    rw [bfsLoop]
    intro x hx c hc
    rcases List.mem_cons.mp hx with rfl | hx'
    · refine bfsLoop_subset cd _ _ _ ?_
      rw [heq]
      exact Finset.mem_union_right _ (List.mem_toFinset.mpr hc)
    · refine ih x ?_ c hc
      rw [heq]
      exact List.mem_append_left _ hx'

theorem bfsLoop_closed (cd : List (Int × List Int)) (d : Finset Int) (q hist : List Int)
    (hinv : ∀ y ∈ d, y ∈ q ∨ ∀ c ∈ lookupChildren cd y, c ∈ d) :
    ∀ y ∈ (bfsLoop cd d q hist).1, ∀ c ∈ lookupChildren cd y, c ∈ (bfsLoop cd d q hist).1 := by
  induction cd, d, q, hist using bfsLoop.induct with
  | case1 cd d hist =>
    intro y hy c hc
    rw [bfsLoop] at hy ⊢
    rcases hinv y hy with h | h
    · simp at h
    · exact h c hc
  | case2 cd d current rest hist ih =>
    obtain ⟨new, heq, -, hmem, hcov⟩ := addChildrenH_eq (lookupChildren cd current) d rest hist
    have e1 : (addChildrenH d rest hist (lookupChildren cd current)).1
        = d ∪ (lookupChildren cd current).toFinset := by rw [heq]
    have e2 : (addChildrenH d rest hist (lookupChildren cd current)).2.1 = rest ++ new := by
      rw [heq]
    rw [bfsLoop]
    refine ih ?_
    rw [e1, e2]
    intro y hy
    rcases Finset.mem_union.mp hy with hyd | hycs
    · rcases hinv y hyd with hq | hcl
      · rcases List.mem_cons.mp hq with rfl | hrest
        · exact Or.inr (fun c hc => Finset.mem_union_right _ (List.mem_toFinset.mpr hc))
        · exact Or.inl (List.mem_append_left _ hrest)
      · exact Or.inr (fun c hc => Finset.mem_union_left _ (hcl c hc))
    · by_cases hyd : y ∈ d
      · rcases hinv y hyd with hq | hcl
        · rcases List.mem_cons.mp hq with rfl | hrest
          · exact Or.inr (fun c hc => Finset.mem_union_right _ (List.mem_toFinset.mpr hc))
          · exact Or.inl (List.mem_append_left _ hrest)
        · exact Or.inr (fun c hc => Finset.mem_union_left _ (hcl c hc))
      · exact Or.inl (List.mem_append_right _ (hcov y (List.mem_toFinset.mp hycs) hyd))

theorem bfsLoop_log_nodup (cd : List (Int × List Int)) (d : Finset Int) (q hist : List Int)
    (hnd : hist.Nodup) (hsub : ∀ x ∈ hist, x ∈ d) :
    (bfsLoop cd d q hist).2.Nodup := by
  induction cd, d, q, hist using bfsLoop.induct with
  | case1 cd d hist => simpa [bfsLoop] using hnd
  | case2 cd d current rest hist ih =>
    obtain ⟨new, heq, hndnew, hmem, -⟩ := addChildrenH_eq (lookupChildren cd current) d rest hist
    have e1 : (addChildrenH d rest hist (lookupChildren cd current)).1
        = d ∪ (lookupChildren cd current).toFinset := by rw [heq]
    have e3 : (addChildrenH d rest hist (lookupChildren cd current)).2.2 = hist ++ new := by
      rw [heq]
    rw [bfsLoop]
    refine ih ?_ ?_
    · rw [e3]
      refine List.nodup_append.mpr ⟨hnd, hndnew, ?_⟩
      intro x hx hx'
      exact (hmem x hx').2 (hsub x hx)
    · rw [e1, e3]
      intro x hx
      rcases List.mem_append.mp hx with h | h
      · exact Finset.mem_union_left _ (hsub x h)
      · exact Finset.mem_union_right _ (List.mem_toFinset.mpr (hmem x h).1)

theorem mem_get_all_descendants_iff (cd : List (Int × List Int)) (r x : Int) :
    x ∈ get_all_descendants r cd ↔ Reaches cd r x := by
  constructor
  · intro hx
    exact (bfsLoop_sound cd r ∅ [r] [] (by simp) (by simp) (by simp)).1 x hx
  · intro h
    induction h with
    | child hc => exact bfsLoop_queue_children cd ∅ [r] [] r (List.mem_cons_self _ _) _ hc
    | step hpq hc ih => exact bfsLoop_closed cd ∅ [r] [] (by simp) _ ih _ hc

theorem enqueueLog_nodup (r : Int) (cd : List (Int × List Int)) : (enqueueLog r cd).Nodup :=
  bfsLoop_log_nodup cd ∅ [r] [] List.nodup_nil (by simp)

theorem mem_enqueueLog_reaches (r : Int) (cd : List (Int × List Int)) :
    ∀ x ∈ enqueueLog r cd, Reaches cd r x :=
  (bfsLoop_sound cd r ∅ [r] [] (by simp) (by simp) (by simp)).2

theorem bfsLoopFuel_sound {cd : List (Int × List Int)} :
    ∀ {n : Nat} {d : Finset Int} {q hist : List Int} {x : Finset Int × List Int},
      bfsLoopFuel n cd d q hist = some x → bfsLoop cd d q hist = x := by
  intro n
  induction n with
  | zero => intro d q hist x h; simp [bfsLoopFuel] at h
  | succ n ih =>
    intro d q hist x h
    match q with
    | [] =>
      simp only [bfsLoopFuel, Option.some.injEq] at h
      rw [bfsLoop, h]
    | current :: rest =>
      simp only [bfsLoopFuel] at h
      rw [bfsLoop]
      exact ih h

theorem bfsLoopFuel_exists (cd : List (Int × List Int)) (d : Finset Int) (q hist : List Int) :
    ∃ n, bfsLoopFuel n cd d q hist = some (bfsLoop cd d q hist) := by
  induction cd, d, q, hist using bfsLoop.induct with
  | case1 cd d hist => exact ⟨1, by rw [bfsLoop]; rfl⟩
  | case2 cd d current rest hist ih =>
    obtain ⟨n, hn⟩ := ih
    refine ⟨n + 1, ?_⟩
    rw [bfsLoop]
    simpa [bfsLoopFuel] using hn

/-! ### Claims about the descendant collector -/

/-- C2 (amended): for every root `r` and children mapping, the computed
set contains `x` iff there is a non-empty directed path of parent links
from `x` up to `r`; the post-initial enqueue log is duplicate-free (no
identifier is ever re-enqueued after the enqueue that discovered it),
and every logged identifier — in particular `r` itself, if it ever
re-enters the queue — is reachable from `r`, so for an acyclic mapping
the root is neither contained nor re-enqueued. -/
theorem get_all_descendants_characterization :
    ∀ (cd : List (Int × List Int)) (r : Int),
      (∀ x, x ∈ get_all_descendants r cd ↔ Reaches cd r x) ∧
      (enqueueLog r cd).Nodup ∧
      (∀ x ∈ enqueueLog r cd, Reaches cd r x) :=
  fun cd r =>
    ⟨fun x => mem_get_all_descendants_iff cd r x, enqueueLog_nodup r cd,
      mem_enqueueLog_reaches r cd⟩

/-- C2, counterexample to the claim as stated: on the cyclic mapping
`{0: [0]}` with root `0`, the result set contains the root itself, and
the root is re-enqueued (it appears in the post-initial enqueue log). -/
theorem get_all_descendants_contains_root_cex :
    get_all_descendants 0 [((0 : Int), [0])] = {0} ∧ enqueueLog 0 [((0 : Int), [0])] = [0] := by
  have h : bfsLoopFuel 3 [((0 : Int), [0])] ∅ [0] [] = some ({0}, [0]) := by decide
  have h2 := bfsLoopFuel_sound h
  exact ⟨by rw [get_all_descendants, h2], by rw [enqueueLog, h2]⟩

/-- C4: the traversal terminates on every finite children mapping,
cyclic ones included: some finite fuel drives the loop to exhaust its
queue, returning exactly the result of `get_all_descendants`, and each
identifier is enqueued at most once after the initial root (the enqueue
log is duplicate-free). -/
theorem get_all_descendants_terminates :
    ∀ (cd : List (Int × List Int)) (r : Int),
      (∃ n, bfsLoopFuel n cd ∅ [r] [] = some (get_all_descendants r cd, enqueueLog r cd)) ∧
      (enqueueLog r cd).Nodup := by
  intro cd r
  refine ⟨?_, enqueueLog_nodup r cd⟩
  obtain ⟨n, hn⟩ := bfsLoopFuel_exists cd ∅ [r] []
  exact ⟨n, hn⟩

/-! ### Claims about the validator -/

theorem isUpperAZ_lowerChar (c : Char) : isUpperAZ (lowerChar c) = false := by
  unfold lowerChar isUpperAZ
  by_cases h : 65 ≤ c.toNat ∧ c.toNat ≤ 90
  · rw [dif_pos h]
    have ht : (Char.ofNatAux (c.toNat + 32) (Or.inl (by omega))).toNat = c.toNat + 32 := rfl
    rw [ht]
    simp only [Bool.and_eq_false_iff, decide_eq_false_iff_not]
    omega
  · rw [dif_neg h]
    simp only [Bool.and_eq_false_iff, decide_eq_false_iff_not]
    omega

theorem isUpperAZ_of_mem_lowerL {l : List Char} {x : Char} (h : x ∈ lowerL l) :
    isUpperAZ x = false := by
  obtain ⟨c, -, rfl⟩ := List.mem_map.mp h
  exact isUpperAZ_lowerChar c

theorem anySuffix_runHyphenFour_eq_false {l : List Char}
    (h : ∀ c ∈ l, isUpperAZ c = false) : anySuffix (runHyphenFourAt isUpperAZ) l = false := by
  induction l with
  | nil => rfl
  | cons c cs ih =>
    have hc : runHyphenFourAt isUpperAZ (c :: cs) = false := by
      cases cs with
      | nil => rfl
      | cons b rest => simp [runHyphenFourAt, h c (List.mem_cons_self _ _)]
    simp only [anySuffix, hc, Bool.false_or]
    exact ih (fun x hx => h x (List.mem_cons_of_mem _ hx))

theorem anySuffix_runThreeDigit_eq_false {l : List Char}
    (h : ∀ c ∈ l, isUpperAZ c = false) : anySuffix (runThreeDigitAt isUpperAZ) l = false := by
  induction l with
  | nil => rfl
  | cons c cs ih =>
    have hc : runThreeDigitAt isUpperAZ (c :: cs) = false := by
      match cs with
      | [] => rfl
      | [b] => rfl
      | b :: e :: rest => simp [runThreeDigitAt, h c (List.mem_cons_self _ _)]
    simp only [anySuffix, hc, Bool.false_or]
    exact ih (fun x hx => h x (List.mem_cons_of_mem _ hx))

/-- C3: the two exclusion rules `[A-Z]{2,}-\d{4}` and `[A-Z]{3,}\d+`
never match the lower-cased name — no upper-case ASCII letter survives
lower-casing — so the validator is extensionally equal to the validator
with those two rules removed: the two checks are unreachable. -/
theorem uppercase_rules_unreachable :
    ∀ name : String,
      anySuffix (runHyphenFourAt isUpperAZ) (lowerL name.data) = false ∧
      anySuffix (runThreeDigitAt isUpperAZ) (lowerL name.data) = false ∧
      is_valid_species_name name = is_valid_species_name_reduced name := by
  intro name
  have hnoup : ∀ c ∈ lowerL name.data, isUpperAZ c = false := fun c hc =>
    isUpperAZ_of_mem_lowerL hc
  have h1 := anySuffix_runHyphenFour_eq_false hnoup
  have h2 := anySuffix_runThreeDigit_eq_false hnoup
  refine ⟨h1, h2, ?_⟩
  have hany : excludePatterns.any (fun p => p (lowerL name.data))
      = excludePatternsReduced.any (fun p => p (lowerL name.data)) := by
    simp only [excludePatterns, excludePatternsReduced, List.any_cons, List.any_nil]
    rw [h1, h2]
    simp only [Bool.false_or, Bool.or_false]
  simp only [is_valid_species_name, is_valid_species_name_reduced]
  rw [hany]

/-- C8: the validator's verdicts on the five concrete examples of the
spec's test list. -/
theorem is_valid_species_name_examples :
    is_valid_species_name "Panthera leo" = true ∧
    is_valid_species_name "Panthera leo sp." = false ∧
    is_valid_species_name "Canis lupus (isolate 12)" = false ∧
    is_valid_species_name "Mus musculus BOLD:AAA1234" = false ∧
    is_valid_species_name "Homo sapiens neanderthalensis" = true := by
  refine ⟨?_, ?_, ?_, ?_, ?_⟩ <;> decide

theorem splitWsAux_ne_nil : ∀ (s cur : List Char), ∀ w ∈ splitWsAux cur s, w ≠ [] := by
  intro s
  induction s with
  | nil =>
    intro cur w hw
    simp only [splitWsAux] at hw
    by_cases hc : cur = []
    · simp [hc] at hw
    · rw [if_neg hc] at hw
      rcases List.mem_singleton.mp hw with rfl
      simpa using hc
  | cons c rest ih =>
    intro cur w hw
    simp only [splitWsAux] at hw
    by_cases hws : isPyWs c = true
    · rw [if_pos hws] at hw
      by_cases hc : cur = []
      · rw [if_pos hc] at hw
        exact ih [] w hw
      · rw [if_neg hc] at hw
        rcases List.mem_cons.mp hw with rfl | hw'
        · simpa using hc
        · exact ih [] w hw'
    · rw [if_neg hws] at hw
      exact ih (c :: cur) w hw

theorem pySplit_ne_nil (l : List Char) : ∀ w ∈ pySplit l, w ≠ [] :=
  splitWsAux_ne_nil l []

theorem all_wordStartsLower_iff (ws : List (List Char)) (hne : ∀ w ∈ ws, w ≠ []) :
    ws.all wordStartsLower = true ↔ ∀ w ∈ ws, ∀ c ∈ w.head?, c.isLower = true := by
  induction ws with
  | nil => simp
  | cons w ws ih =>
    obtain ⟨c, w', rfl⟩ := List.exists_cons_of_ne_nil (hne _ (List.mem_cons_self _ _))
    have ihh := ih (fun x hx => hne x (List.mem_cons_of_mem _ hx))
    simp only [List.all_cons, Bool.and_eq_true, wordStartsLower]
    constructor
    · rintro ⟨h1, h2⟩ x hx cc hcc
      rcases List.mem_cons.mp hx with rfl | hx'
      · rw [List.head?_cons, Option.mem_def, Option.some.injEq] at hcc
        exact hcc ▸ h1
      · exact ihh.mp h2 x hx' cc hcc
    · intro h
      refine ⟨h (c :: w') (List.mem_cons_self _ _) c rfl, ihh.mpr ?_⟩
      intro x hx cc hcc
      exact h x (List.mem_cons_of_mem _ hx) cc hcc

/-- C1, counterexample to the claim as stated: on `"Abcd1 efg"` the
code's validator returns `true`, while the spec's description — the
§4.5 patterns matched case-insensitively against the name — returns
`false`, because under `re.IGNORECASE` the rule `[A-Z]{3,}\d+` matches
`"Abcd1"`.  (The code matches that rule against the lower-cased name,
where it can never fire.) -/
theorem is_valid_species_name_ci_cex :
    is_valid_species_name "Abcd1 efg" = true ∧ spec_validate_ci "Abcd1 efg" = false := by
  constructor <;> decide

/-- C1 (amended): the validator returns `true` iff the name has exactly
2 or 3 whitespace-separated words, the first starting with an upper-case
letter and every later one with a lower-case letter, and no exclusion
pattern of §4.5 matches the *lower-cased* name (rather than matching
case-insensitively as the claim stated; the difference is the
`[A-Z]{3,}\d+` rule of the counterexample). -/
theorem is_valid_species_name_iff_spec :
    ∀ name : String, is_valid_species_name name = true ↔ SpecValidLowered name := by
  intro name
  unfold SpecValidLowered
  by_cases hex : excludePatterns.any (fun p => p (lowerL name.data)) = true
  · have hval : is_valid_species_name name = false := by
      simp only [is_valid_species_name]
      rw [if_pos hex]
    rw [hval]
    constructor
    · intro h
      cases h
    · rintro ⟨-, -, -, hpat⟩
      obtain ⟨p, hp, hptrue⟩ := List.any_eq_true.mp hex
      rw [hpat p hp] at hptrue
      cases hptrue
  · have hpat : ∀ p ∈ excludePatterns, p (lowerL name.data) = false := by
      intro p hp
      exact Bool.eq_false_iff.mpr (List.any_eq_false.mp (Bool.eq_false_iff.mpr hex) p hp)
    have hval : is_valid_species_name name
        = (if (pySplit name.data).length < 2 || 3 < (pySplit name.data).length then false
           else if !(firstWordUpper (pySplit name.data)) then false
           else ((pySplit name.data).drop 1).all wordStartsLower) := by
      simp only [is_valid_species_name]
      rw [if_neg hex]
    rw [hval]
    have hne := pySplit_ne_nil name.data
    rcases hws : pySplit name.data with _ | ⟨w1, rest1⟩
    · simp [hpat]
    · rcases rest1 with _ | ⟨w2, rest⟩
      · simp [hpat]
      · rw [hws] at hne
        obtain ⟨c, w1', rfl⟩ := List.exists_cons_of_ne_nil (hne _ (List.mem_cons_self _ _))
        have hnetail : ∀ w ∈ w2 :: rest, w ≠ [] := fun w hw =>
          hne w (List.mem_cons_of_mem _ hw)
        by_cases hlen : 3 < rest.length + 2
        · have hcond : (decide ((((c :: w1') :: w2 :: rest).length < 2)) ||
              decide (3 < ((c :: w1') :: w2 :: rest).length)) = true := by
            simp only [List.length_cons]
            simp only [Bool.or_eq_true, decide_eq_true_eq]
            omega
          rw [if_pos hcond]
          constructor
          · intro h
            cases h
          · rintro ⟨h1 | h1, -⟩ <;> (simp only [List.length_cons] at h1; omega)
        · have hcond : (decide ((((c :: w1') :: w2 :: rest).length < 2)) ||
              decide (3 < ((c :: w1') :: w2 :: rest).length)) = false := by
            simp only [List.length_cons]
            simp only [Bool.or_eq_false_iff, decide_eq_false_iff_not]
            omega
          rw [if_neg (by rw [hcond]; exact Bool.false_ne_true)]
          have hlen23 : ((c :: w1') :: w2 :: rest).length = 2 ∨
              ((c :: w1') :: w2 :: rest).length = 3 := by
            simp only [List.length_cons]
            omega
          have hfw : firstWordUpper ((c :: w1') :: w2 :: rest) = c.isUpper := rfl
          have htake : List.take 1 ((c :: w1') :: w2 :: rest) = [c :: w1'] := rfl
          have hdrop : List.drop 1 ((c :: w1') :: w2 :: rest) = w2 :: rest := rfl
          rw [htake, hdrop]
          by_cases hcu : c.isUpper = true
          · rw [hfw, hcu]
            simp only [Bool.not_true]
            rw [if_neg Bool.false_ne_true]
            rw [all_wordStartsLower_iff (w2 :: rest) hnetail]
            constructor
            · intro h
              refine ⟨hlen23, ?_, h, hpat⟩
              intro w hw cc hcc
              rcases List.mem_singleton.mp hw with rfl
              rw [List.head?_cons, Option.mem_def, Option.some.injEq] at hcc
              exact hcc ▸ hcu
            · rintro ⟨-, -, h3, -⟩
              exact h3
          · have hcu' : c.isUpper = false := Bool.eq_false_iff.mpr hcu
            rw [hfw, hcu']
            simp only [Bool.not_false]
            rw [if_pos trivial]
            constructor
            · intro h
              cases h
            · rintro ⟨-, h2, -, -⟩
              have := h2 (c :: w1') (List.mem_singleton.mpr rfl) c rfl
              exact absurd this hcu

theorem tailWordsLowerE_eq (ws : List (List Char)) (hne : ∀ w ∈ ws, w ≠ []) :
    tailWordsLowerE ws = some (ws.all wordStartsLower) := by
  induction ws with
  | nil => rfl
  | cons w ws ih =>
    obtain ⟨c, w', rfl⟩ := List.exists_cons_of_ne_nil (hne _ (List.mem_cons_self _ _))
    have ihh := ih (fun x hx => hne x (List.mem_cons_of_mem _ hx))
    simp only [tailWordsLowerE, List.head?_cons, List.all_cons, wordStartsLower]
    by_cases hc : c.isLower = true
    · rw [hc]
      simp only [Bool.not_true]
      rw [if_neg Bool.false_ne_true, ihh]
      simp
    · have hc' : c.isLower = false := Bool.eq_false_iff.mpr hc
      rw [hc']
      simp

/-- C10: the validator is total and safe on every string — the explicit
`Option`-indexed version never hits an out-of-range word indexing
(never returns `none`) and agrees with the plain validator, because the
word-count gate runs before any word's first character is read and
split words are never empty; and the fallback name `"Unknown"` is
classified as not valid. -/
theorem is_valid_species_nameE_total :
    (∀ name : String, is_valid_species_nameE name = some (is_valid_species_name name)) ∧
    is_valid_species_name "Unknown" = false := by
  refine ⟨?_, by decide⟩
  intro name
  simp only [is_valid_species_nameE, is_valid_species_name]
  by_cases hex : excludePatterns.any (fun p => p (lowerL name.data)) = true
  · rw [if_pos hex, if_pos hex]
  · rw [if_neg hex, if_neg hex]
    have hne := pySplit_ne_nil name.data
    rcases hws : pySplit name.data with _ | ⟨w1, rest1⟩
    · rw [if_pos (by decide), if_pos (by decide)]
    · rcases rest1 with _ | ⟨w2, rest⟩
      · rw [if_pos (by simp), if_pos (by simp)]
      · rw [hws] at hne
        obtain ⟨c, w1', rfl⟩ := List.exists_cons_of_ne_nil (hne _ (List.mem_cons_self _ _))
        by_cases hlen : (decide ((((c :: w1') :: w2 :: rest)).length < 2)
            || decide (3 < (((c :: w1') :: w2 :: rest)).length)) = true
        · rw [if_pos hlen, if_pos hlen]
        · rw [if_neg hlen, if_neg hlen]
          simp only [List.head?_cons]
          have hdrop : List.drop 1 ((c :: w1') :: w2 :: rest) = w2 :: rest := rfl
          have hfw : firstWordUpper ((c :: w1') :: w2 :: rest) = c.isUpper := rfl
          rw [hdrop, hfw]
          by_cases hcu : c.isUpper = true
          · rw [hcu]
            simp only [Bool.not_true]
            rw [if_neg Bool.false_ne_true, if_neg Bool.false_ne_true]
            exact tailWordsLowerE_eq (w2 :: rest) (fun w hw => hne w (List.mem_cons_of_mem _ hw))
          · have hcu' : c.isUpper = false := Bool.eq_false_iff.mpr hcu
            rw [hcu']
            simp only [Bool.not_false]
            rw [if_pos trivial, if_pos trivial]

/-! ### Claims about the loaders -/

theorem parseNodeLine_none_iff (line : String) : parseNodeLine line = none ↔ badNodeLine line := by
  unfold parseNodeLine badNodeLine
  rcases h : splitTabPipe [] (stripWs line.data) with _ | ⟨p0, _ | ⟨p1, _ | ⟨p2, ps⟩⟩⟩
  · simp
  · simp
  · simp
  · rcases ht : pyIntL (stripWs p0) with _ | t <;> rcases hpt : pyIntL (stripWs p1) with _ | pt <;>
      simp [ht, hpt]

theorem load_nodes_aux_eq (lines : List String) :
    ∀ acc, load_nodes_aux acc lines = (parseAllNodes lines).map (fun ts => ts.foldl nodeStep acc) := by
  induction lines with
  | nil => intro acc; rfl
  | cons line rest ih =>
    intro acc
    simp only [load_nodes_aux, parseAllNodes]
    rcases parseNodeLine line with _ | t
    · rfl
    · simp only []
      rw [ih (nodeStep acc t)]
      rcases parseAllNodes rest with _ | ts
      · rfl
      · simp [List.foldl_cons]

theorem parseAllNodes_none_iff (lines : List String) :
    parseAllNodes lines = none ↔ ∃ l ∈ lines, parseNodeLine l = none := by
  induction lines with
  | nil => simp [parseAllNodes]
  | cons line rest ih =>
    simp only [parseAllNodes]
    rcases hp : parseNodeLine line with _ | t
    · simp only []
      constructor
      · intro _
        exact ⟨line, List.mem_cons_self _ _, hp⟩
      · intro _
        trivial
    · simp only []
      constructor
      · intro hmap
        have hrn : parseAllNodes rest = none := by
          rcases hr : parseAllNodes rest with _ | ts
          · rfl
          · rw [hr] at hmap
            cases hmap
        obtain ⟨l, hl, hln⟩ := ih.mp hrn
        exact ⟨l, List.mem_cons_of_mem _ hl, hln⟩
      · rintro ⟨l, hl, hln⟩
        rcases List.mem_cons.mp hl with rfl | hl'
        · rw [hln] at hp
          cases hp
        · rw [ih.mpr ⟨l, hl', hln⟩]
          rfl

/-- C5: the node loader aborts (returns `none`) exactly when some input
line splits into fewer than 3 fields or has a non-integer identifier or
parent field; on well-formed input it returns the three mappings
identifier→parent, identifier→rank and parent→ordered child list,
accumulated over the parsed lines in file order. -/
theorem load_nodes_spec :
    ∀ lines : List String,
      (load_nodes lines = none ↔ ∃ line ∈ lines, badNodeLine line) ∧
      load_nodes lines = (parseAllNodes lines).map buildNodeMaps := by
  intro lines
  have h2 : load_nodes lines = (parseAllNodes lines).map buildNodeMaps :=
    load_nodes_aux_eq lines ([], [], [])
  refine ⟨?_, h2⟩
  rw [h2]
  constructor
  · intro h
    have hn : parseAllNodes lines = none := by
      rcases hr : parseAllNodes lines with _ | ts
      · rfl
      · rw [hr] at h
        cases h
    obtain ⟨l, hl, hln⟩ := (parseAllNodes_none_iff lines).mp hn
    exact ⟨l, hl, (parseNodeLine_none_iff l).mp hln⟩
  · rintro ⟨l, hl, hbad⟩
    rw [(parseAllNodes_none_iff lines).mpr ⟨l, hl, (parseNodeLine_none_iff l).mpr hbad⟩]
    rfl

theorem lookupA_updAssoc {β : Type} (m : List (Int × β)) (k : Int) (v : β) (i : Int) :
    lookupA (updAssoc m k v) i = if k = i then some v else lookupA m i := by
  induction m with
  | nil => rfl
  | cons p rest ih =>
    obtain ⟨k', v'⟩ := p
    simp only [updAssoc]
    by_cases hk : k' = k
    · rw [if_pos hk]
      subst hk
      simp only [lookupA]
      by_cases hi : k' = i
      · rw [if_pos hi, if_pos hi]
      · rw [if_neg hi, if_neg hi, if_neg hi]
    · rw [if_neg hk]
      simp only [lookupA]
      by_cases hi : k' = i
      · have hki : ¬(k = i) := fun hh => hk (hh ▸ hi)
        rw [if_pos hi, if_neg hki, if_pos hi]
      · rw [if_neg hi, if_neg hi, ih]

theorem firstSome_assoc {β : Type} (a b c : Option β) :
    firstSome (firstSome a b) c = firstSome a (firstSome b c) := by
  cases a <;> rfl

theorem firstSome_none_right {β : Type} (a : Option β) : firstSome a none = a := by
  cases a <;> rfl

theorem firstHit_append {α β : Type} (f : α → Option β) (xs ys : List α) :
    firstHit f (xs ++ ys) = firstSome (firstHit f xs) (firstHit f ys) := by
  induction xs with
  | nil => rfl
  | cons a as ih =>
    simp only [List.cons_append, firstHit]
    rcases h : f a with _ | b
    · simpa [firstSome] using ih
    · rfl

theorem firstHit_eq_none_iff {α β : Type} (f : α → Option β) (xs : List α) :
    firstHit f xs = none ↔ ∀ x ∈ xs, f x = none := by
  induction xs with
  | nil => simp [firstHit]
  | cons a as ih =>
    simp only [firstHit, List.mem_cons]
    rcases h : f a with _ | b
    · simp only []
      constructor
      · intro hrest x hx
        rcases hx with rfl | hx'
        · exact h
        · exact ih.mp hrest x hx'
      · intro hall
        exact ih.mpr (fun x hx => hall x (Or.inr hx))
    · simp only []
      constructor
      · intro habs
        cases habs
      · intro hall
        have := hall a (Or.inl rfl)
        rw [this] at h
        cases h

theorem load_names_aux_lookup (lines : List String) :
    ∀ acc m, load_names_aux acc lines = some m →
      ∀ i, lookupA m i
        = firstSome (firstHit (fun l => sciEntry l i) lines.reverse) (lookupA acc i) := by
  induction lines with
  | nil =>
    intro acc m h i
    simp only [load_names_aux, Option.some.injEq] at h
    subst h
    rfl
  | cons line rest ih =>
    intro acc m h i
    simp only [load_names_aux] at h
    rcases hp : parseNameLine line with _ | t
    · rw [hp] at h
      cases h
    · rw [hp] at h
      obtain ⟨tax_id, nm, name_class⟩ := t
      have hrec := ih _ m h i
      rw [hrec]
      simp only [List.reverse_cons]
      rw [firstHit_append, firstSome_assoc]
      congr 1
      have hsingle : firstHit (fun l => sciEntry l i) [line] = sciEntry line i := by
        simp only [firstHit]
        rcases sciEntry line i with _ | v <;> rfl
      rw [hsingle]
      by_cases hcls : name_class = "scientific name"
      · rw [if_pos hcls, lookupA_updAssoc]
        have hsci : sciEntry line i = if tax_id = i then some nm else none := by
          simp only [sciEntry, hp]
          by_cases hti : tax_id = i
          · rw [if_pos ⟨hcls, hti⟩, if_pos hti]
          · rw [if_neg (fun hand => hti hand.2), if_neg hti]
        rw [hsci]
        by_cases hti : tax_id = i
        · rw [if_pos hti, if_pos hti]
          rfl
        · rw [if_neg hti, if_neg hti]
          rfl
      · rw [if_neg hcls]
        have hsci : sciEntry line i = none := by
          simp only [sciEntry, hp]
          rw [if_neg (fun hand => hcls hand.1)]
        rw [hsci]
        rfl

/-- C9: when the name loader succeeds, its mapping holds an entry for
identifier `i` exactly when some line for `i` has name class
`"scientific name"` (after stripping trailing pipe/tab characters), and
the stored name is the one from the *last* such line in file order
(the first hit in the reversed file). -/
theorem load_names_spec :
    ∀ (lines : List String) (names_dict : List (Int × String)),
      load_names lines = some names_dict →
      ∀ i : Int,
        lookupA names_dict i = firstHit (fun l => sciEntry l i) lines.reverse ∧
        (lookupA names_dict i ≠ none ↔ ∃ line ∈ lines, sciEntry line i ≠ none) := by
  intro lines names_dict h i
  have h1 := load_names_aux_lookup lines [] names_dict h i
  have h2 : lookupA ([] : List (Int × String)) i = none := rfl
  rw [h2, firstSome_none_right] at h1
  refine ⟨h1, ?_⟩
  rw [h1]
  have hiff := firstHit_eq_none_iff (fun l => sciEntry l i) lines.reverse
  constructor
  · intro hne
    by_contra hno
    refine hne (hiff.mpr ?_)
    intro x hx
    by_contra hxne
    exact hno ⟨x, List.mem_reverse.mp hx, hxne⟩
  · rintro ⟨l, hl, hlne⟩ hnone
    exact hlne (hiff.mp hnone l (List.mem_reverse.mpr hl))

/-! ### Claims about the species filter, reporter and pipeline -/

theorem speciesLists_aux (rk nd : List (Int × String)) (order : List Int) :
    ∀ acc : List String × List String,
      order.foldl (fun acc tax_id =>
        if lookupA rk tax_id = some "species" then
          (acc.1 ++ [(lookupA nd tax_id).getD "Unknown"],
           if is_valid_species_name ((lookupA nd tax_id).getD "Unknown") then
             acc.2 ++ [(lookupA nd tax_id).getD "Unknown"]
           else acc.2)
        else acc) acc
      = (acc.1 ++ speciesAll order rk nd,
         acc.2 ++ (speciesAll order rk nd).filter is_valid_species_name) := by
  induction order with
  | nil =>
    intro acc
    simp [speciesAll]
  | cons t rest ih =>
    intro acc
    simp only [List.foldl_cons]
    by_cases hr : lookupA rk t = some "species"
    · rw [if_pos hr]
      have hall : speciesAll (t :: rest) rk nd
          = ((lookupA nd t).getD "Unknown") :: speciesAll rest rk nd := by
        simp [speciesAll, List.filterMap_cons, hr]
      rw [hall]
      by_cases hv : is_valid_species_name ((lookupA nd t).getD "Unknown") = true
      · rw [if_pos hv, ih]
        simp [List.filter_cons, hv, List.append_assoc]
      · have hv' : is_valid_species_name ((lookupA nd t).getD "Unknown") = false :=
          Bool.eq_false_iff.mpr hv
        rw [if_neg hv, ih]
        simp [List.filter_cons, hv', List.append_assoc]
    · rw [if_neg hr]
      have hall : speciesAll (t :: rest) rk nd = speciesAll rest rk nd := by
        simp [speciesAll, List.filterMap_cons, hr]
      rw [hall, ih]

theorem speciesLists_eq (order : List Int) (rk nd : List (Int × String)) :
    speciesLists order rk nd
      = (speciesAll order rk nd, (speciesAll order rk nd).filter is_valid_species_name) := by
  have h := speciesLists_aux rk nd order ([], [])
  simpa [speciesLists] using h

theorem count_speciesAll (rk nd : List (Int × String)) (nm : String) (order : List Int) :
    (speciesAll order rk nd).count nm
      = (order.filter (fun t => decide (lookupA rk t = some "species")
          && decide ((lookupA nd t).getD "Unknown" = nm))).length := by
  induction order with
  | nil => rfl
  | cons t rest ih =>
    simp only [speciesAll, List.filterMap_cons, List.filter_cons]
    by_cases hr : lookupA rk t = some "species"
    · by_cases hn : (lookupA nd t).getD "Unknown" = nm
      · simpa [hr, hn, List.count_cons, speciesAll] using ih
      · simpa [hr, hn, List.count_cons, speciesAll] using ih
    · simpa [hr, speciesAll] using ih

/-- C6 (amended): the written sequence of confirmed names is sorted
ascending by plain string order, is a subset *with multiplicity* of the
"all species" sequence (not necessarily strict — see the
counterexample), and keeps duplicates: a valid name appears exactly as
often as there are qualifying identifiers carrying it. -/
theorem species_output_spec :
    ∀ (descendants_order : List Int) (rank_dict names_dict : List (Int × String)),
      List.Sorted (fun a b : String => a ≤ b)
        (sortNames (speciesLists descendants_order rank_dict names_dict).2) ∧
      (∀ nm : String,
        (sortNames (speciesLists descendants_order rank_dict names_dict).2).count nm
          ≤ (sortNames (speciesLists descendants_order rank_dict names_dict).1).count nm) ∧
      (∀ nm : String, is_valid_species_name nm = true →
        (sortNames (speciesLists descendants_order rank_dict names_dict).2).count nm
          = (descendants_order.filter (fun t =>
              decide (lookupA rank_dict t = some "species")
                && decide ((lookupA names_dict t).getD "Unknown" = nm))).length) := by
  intro order rk nd
  refine ⟨List.sorted_insertionSort _ _, ?_, ?_⟩
  · intro nm
    have hc2 : (sortNames (speciesLists order rk nd).2).count nm
        = ((speciesLists order rk nd).2).count nm :=
      (List.perm_insertionSort _ _).count_eq nm
    have hc1 : (sortNames (speciesLists order rk nd).1).count nm
        = ((speciesLists order rk nd).1).count nm :=
      (List.perm_insertionSort _ _).count_eq nm
    rw [hc1, hc2, speciesLists_eq]
    exact (List.filter_sublist _).count_le nm
  · intro nm hnm
    have hc2 : (sortNames (speciesLists order rk nd).2).count nm
        = ((speciesLists order rk nd).2).count nm :=
      (List.perm_insertionSort _ _).count_eq nm
    rw [hc2, speciesLists_eq]
    have hcf : ((speciesAll order rk nd).filter is_valid_species_name).count nm
        = (speciesAll order rk nd).count nm := List.count_filter hnm
    simp only []
    rw [hcf, count_speciesAll]

/-- C6, counterexample to "strict subset": on a run with one species
identifier `9685` ranked `"species"` and named `"Felis catus"` (a valid
name), the confirmed output sequence equals the whole "all species"
sequence, so it is not a *strict* subset of it. -/
theorem species_output_strictness_cex :
    sortNames (speciesLists [(9685 : Int)] [((9685 : Int), "species")]
        [((9685 : Int), "Felis catus")]).2
      = sortNames (speciesLists [(9685 : Int)] [((9685 : Int), "species")]
        [((9685 : Int), "Felis catus")]).1 ∧
    (speciesLists [(9685 : Int)] [((9685 : Int), "species")]
        [((9685 : Int), "Felis catus")]).1 = ["Felis catus"] := by
  constructor
  · rfl
  · decide

/-- C7: the pipeline is deterministic — its output text does not depend
on the enumeration order of the unordered descendant set: any two
duplicate-free enumerations of the descendant set of the mammal root
produce identical output files; with the loaders being functions of the
input lines, two runs on identical inputs are byte-identical. -/
theorem pipeline_deterministic :
    ∀ (nodeLines nameLines : List String) (parent_dict : List (Int × Int))
      (rank_dict : List (Int × String)) (children_dict : List (Int × List Int))
      (names_dict : List (Int × String)) (o₁ o₂ : List Int),
      load_nodes nodeLines = some (parent_dict, rank_dict, children_dict) →
      load_names nameLines = some names_dict →
      o₁.Nodup → o₂.Nodup →
      o₁.toFinset = get_all_descendants MAMMALIA_TAX_ID children_dict →
      o₂.toFinset = get_all_descendants MAMMALIA_TAX_ID children_dict →
      runPipeline nodeLines nameLines o₁ = runPipeline nodeLines nameLines o₂ := by
  intro nodeLines nameLines pd rk cd nd o₁ o₂ hn hm h1 h2 ht1 ht2
  have hperm : o₁.Perm o₂ := List.perm_of_nodup_nodup_toFinset_eq h1 h2 (by rw [ht1, ht2])
  have hA : (speciesAll o₁ rk nd).Perm (speciesAll o₂ rk nd) := hperm.filterMap _
  have hV : ((speciesAll o₁ rk nd).filter is_valid_species_name).Perm
      ((speciesAll o₂ rk nd).filter is_valid_species_name) := hA.filter _
  have hsort : sortNames ((speciesAll o₁ rk nd).filter is_valid_species_name)
      = sortNames ((speciesAll o₂ rk nd).filter is_valid_species_name) := by
    refine List.eq_of_perm_of_sorted ?_ (List.sorted_insertionSort _ _)
      (List.sorted_insertionSort _ _)
    exact ((List.perm_insertionSort _ _).trans hV).trans (List.perm_insertionSort _ _).symm
  simp only [runPipeline, hn, hm]
  rw [speciesLists_eq, speciesLists_eq]
  simp only []
  rw [hsort]

/-- C7, witness: the hypotheses discharged on a concrete three-node
taxonomy with a single species descendant. -/
theorem pipeline_deterministic_witness :
    runPipeline ["1\t|\t1\t|\tno rank", "40674\t|\t1\t|\tclass", "9685\t|\t40674\t|\tspecies"]
        ["9685\t|\tFelis catus\t|\t\t|\tscientific name"] [(9685 : Int)]
      = runPipeline ["1\t|\t1\t|\tno rank", "40674\t|\t1\t|\tclass", "9685\t|\t40674\t|\tspecies"]
        ["9685\t|\tFelis catus\t|\t\t|\tscientific name"] [(9685 : Int)] := by
  have hfuel : bfsLoopFuel 4 [((1 : Int), [(1 : Int), 40674]), (40674, [9685])]
      ∅ [MAMMALIA_TAX_ID] [] = some ({9685}, [9685]) := by decide
  have hga : get_all_descendants MAMMALIA_TAX_ID [((1 : Int), [(1 : Int), 40674]), (40674, [9685])]
      = {9685} := by
    rw [get_all_descendants, bfsLoopFuel_sound hfuel]
  exact pipeline_deterministic _ _ [(1, 1), (40674, 1), (9685, 40674)]
    [(1, "no rank"), (40674, "class"), (9685, "species")]
    [(1, [1, 40674]), (40674, [9685])] [(9685, "Felis catus")] [9685] [9685]
    (by decide) (by decide) (by decide) (by decide)
    (by rw [hga]; decide) (by rw [hga]; decide)

/-- C9, witness: two scientific-name lines for identifier 7 — the later
one wins. -/
theorem load_names_spec_witness :
    lookupA [((7 : Int), "Ccc ddd")] 7
      = firstHit (fun l => sciEntry l 7)
        (["7\t|\tAaa bbb\t|\t\t|\tscientific name",
          "7\t|\tCcc ddd\t|\t\t|\tscientific name"].reverse) :=
  (load_names_spec
    ["7\t|\tAaa bbb\t|\t\t|\tscientific name",
     "7\t|\tCcc ddd\t|\t\t|\tscientific name"]
    [(7, "Ccc ddd")] (by decide) 7).1
